import Mathlib

/-!
Verification development for the RAJA execution-policy dispatch and
reduction core (`forall_cilk_icc.hxx`, `policy/openmp/forall_param.hpp`).

The C++ templates are shallowly embedded as executable Lean functions:

* `Index_type` is modelled by `Int`.
* A `cilk_for` / `omp for` loop over the index range `[begin, end)`
  (respectively a strided range, or an indirection array) invokes the loop
  body once per index; the sequence of indices enumerated by the loop
  header is `rangeIndices` / `strideIndices` / the indirection list.
  Scheduling nondeterminism (which worker runs which iteration, and in
  which order) is modelled, where a claim quantifies over it, by an
  arbitrary permutation `sched` of the canonical index sequence together
  with an arbitrary worker assignment.
* The Cilk `reducer_min_index` / `reducer_max_index` state is an
  `Option (Int × Int)` holding the (index, value) pair with the extreme
  value seen so far; `none` is the reducer identity (numeric_limits
  max/lowest in C++), for which the final strict comparison against the
  caller's accumulator is always false, so `none` yields no write-back
  exactly as in the C++ code.
* The caller-supplied loop bodies are template parameters, not part of
  the repository; they are modelled from the spec (see `minlocBody`,
  `maxlocBody`, and the summed contribution function `f`).
-/

namespace RAJA

/-- Indices enumerated by `for (ii = begin; ii < end; ++ii)`
(`forall(cilk_for_exec, begin, end, loop_body)`). -/
def rangeIndices (b e : Int) : List Int :=
  (List.range (e - b).toNat).map (fun k : Nat => b + (k : Int))

/-- Number of iterations of `for (ii = begin; ii < end; ii += stride)`
for a positive stride. -/
def numIters (b e s : Int) : Nat :=
  if e ≤ b then 0 else ((e - b).toNat + (s.toNat - 1)) / s.toNat

/-- Indices enumerated by `for (ii = begin; ii < end; ii += stride)`
(`forall(cilk_for_exec, begin, end, stride, loop_body)`). -/
def strideIndices (b e s : Int) : List Int :=
  (List.range (numIters b e s)).map (fun k : Nat => b + (k : Int) * s)

/-- Execution of a flat `forall`: the loop body is invoked once per index of
the schedule `sched`, threading a state. -/
def forall_exec {σ : Type} (loop_body : Int → σ → σ) (sched : List Int) (s : σ) : σ :=
  sched.foldl (fun st ii => loop_body ii st) s

/-- Modelled from the spec: the per-index visitation counter array used to
state exactly-once visitation ("verified via a per-index visitation counter
array"), obtained by running the flat `forall` with a body that increments
the counter of its index. -/
def visitCount (sched : List Int) : Int → Nat :=
  forall_exec (fun ii cnt => Function.update cnt ii (cnt ii + 1)) sched (fun _ => 0)

/-- Embedding of `forall_sum(cilk_for_exec, ...)`: `nthreads` worker-local
accumulators are zero-initialised (`sum_tmp[i] = 0`), each loop iteration
adds the loop body's contribution `f ii` into the slot of the worker
`w ii` executing it (`loop_body(ii, &sum_tmp[__cilkrts_get_worker_number()])`),
and after the loop every slot is added into the caller's accumulator
(`*sum += sum_tmp[i]`). `sched` is the multiset of executed indices in
execution order. -/
def forall_sum (nthreads : Nat) (w : Int → Nat) (f : Int → Int)
    (sched : List Int) (sum0 : Int) : Int :=
  let sum_tmp := sched.foldl
    (fun t ii => Function.update t (w ii) (t (w ii) + f ii)) (fun _ => 0)
  sum0 + ∑ i in Finset.range nthreads, sum_tmp i

/-- Modelled from the spec: the caller-supplied minloc loop body, a template
parameter not in the repository. "At each index, the loop body proposes a
candidate (value, index)": it compares its contribution `f ii` against the
running minimum `*min_tmp` and records value and location on improvement. -/
def minlocBody (f : Int → Int) (ii : Int) (p : Int × Int) : Int × Int :=
  if f ii < p.1 then (f ii, ii) else p

/-- Modelled from the spec: the caller-supplied maxloc loop body, symmetric
to `minlocBody` with a strictly-greater comparison. -/
def maxlocBody (f : Int → Int) (ii : Int) (p : Int × Int) : Int × Int :=
  if f ii > p.1 then (f ii, ii) else p

/-- Embedding of `cilk::reducer_min_index::calc_min(i, v)`: keep the
(index, value) pair with the strictly smallest value, first-seen winning
ties; `none` is the reducer identity. -/
def calcMin (red : Option (Int × Int)) (i v : Int) : Option (Int × Int) :=
  match red with
  | none => some (i, v)
  | some iv => if v < iv.2 then some (i, v) else some iv

/-- Embedding of `cilk::reducer_max_index::calc_max(i, v)`. -/
def calcMax (red : Option (Int × Int)) (i v : Int) : Option (Int × Int) :=
  match red with
  | none => some (i, v)
  | some iv => if v > iv.2 then some (i, v) else some iv

/-- Loop of `forall_minloc`: per index, run the loop body on
`(min_tmp, loc_tmp)` and then offer `reduction.calc_min(ii, min_tmp)`. -/
def minlocLoop (f : Int → Int) (idxs : List Int) (p : Int × Int)
    (red : Option (Int × Int)) : (Int × Int) × Option (Int × Int) :=
  match idxs with
  | [] => (p, red)
  | ii :: rest =>
      let p2 := minlocBody f ii p
      minlocLoop f rest p2 (calcMin red ii p2.1)

/-- Loop of `forall_maxloc`. -/
def maxlocLoop (f : Int → Int) (idxs : List Int) (p : Int × Int)
    (red : Option (Int × Int)) : (Int × Int) × Option (Int × Int) :=
  match idxs with
  | [] => (p, red)
  | ii :: rest =>
      let p2 := maxlocBody f ii p
      maxlocLoop f rest p2 (calcMax red ii p2.1)

/-- Merge step of `forall_minloc`:
`if (reduction.get_value() < *min) { *min = reduction.get_value(); *loc =
reduction.get_index(); }`. An empty reducer (`none`) has
`get_value() = numeric_limits max`, for which the strict comparison is
false, so it writes nothing back. Returns the final `(*min, *loc)`. -/
def minWriteback (min0 loc0 : Int) (red : Option (Int × Int)) : Int × Int :=
  match red with
  | some iv => if iv.2 < min0 then (iv.2, iv.1) else (min0, loc0)
  | none => (min0, loc0)

/-- Merge step of `forall_maxloc`, with the strictly-greater comparison. -/
def maxWriteback (max0 loc0 : Int) (red : Option (Int × Int)) : Int × Int :=
  match red with
  | some iv => if iv.2 > max0 then (iv.2, iv.1) else (max0, loc0)
  | none => (max0, loc0)

/-- Embedding of `forall_minloc(cilk_for_exec, ...)` over the index sequence
`idxs`: `min_tmp = *min; loc_tmp = *loc;` then the loop, then the merge.
Returns the final `(*min, *loc)`. -/
def forall_minloc (f : Int → Int) (idxs : List Int) (min0 loc0 : Int) :
    Int × Int :=
  minWriteback min0 loc0 (minlocLoop f idxs (min0, loc0) none).2

/-- Embedding of `forall_maxloc(cilk_for_exec, ...)`. -/
def forall_maxloc (f : Int → Int) (idxs : List Int) (max0 loc0 : Int) :
    Int × Int :=
  maxWriteback max0 loc0 (maxlocLoop f idxs (max0, loc0) none).2

/-- Embedding of `HybridISet::Segment`: the discriminated union over segment
kinds. `_RangeStride_` is compiled out (`#if 0`) in every segmented dispatch
switch, so a segment carrying it (or any other discriminator value beyond
`_Range_` and `_Unstructured_`) falls to the `default:` case; such segments
are modelled by `unknown`. -/
inductive Segment : Type
  | range (b e : Int)
  | unstructured (idx : List Int)
  | unknown
deriving DecidableEq

/-- Index sequence dispatched for one segment by the segmented `forall`
switch: a `_Range_` segment iterates its range, an `_Unstructured_` segment
its indirection list, and the `default:` case does nothing. -/
def segIndices : Segment → List Int
  | Segment.range b e => rangeIndices b e
  | Segment.unstructured idx => idx
  | Segment.unknown => []

/-- Concatenated index sequence of a hybrid index set's segments, in segment
order: the invocation sequence of the segmented flat `forall`. -/
def hybridIndices : List Segment → List Int
  | [] => []
  | seg :: rest => segIndices seg ++ hybridIndices rest

/-- Loop of the segmented `forall_minloc` over a `HybridISet`: per segment,
recursively dispatch `forall_minloc` on `(&min_tmp, &loc_tmp)` (the
`default:` case dispatches nothing), then offer
`reduction.calc_min(loc_tmp, min_tmp)`. -/
def hybridMinLoop (f : Int → Int) (segs : List Segment) (p : Int × Int)
    (red : Option (Int × Int)) : (Int × Int) × Option (Int × Int) :=
  match segs with
  | [] => (p, red)
  | seg :: rest =>
      let p2 := forall_minloc f (segIndices seg) p.1 p.2
      hybridMinLoop f rest p2 (calcMin red p2.2 p2.1)

/-- Loop of the segmented `forall_maxloc`. -/
def hybridMaxLoop (f : Int → Int) (segs : List Segment) (p : Int × Int)
    (red : Option (Int × Int)) : (Int × Int) × Option (Int × Int) :=
  match segs with
  | [] => (p, red)
  | seg :: rest =>
      let p2 := forall_maxloc f (segIndices seg) p.1 p.2
      hybridMaxLoop f rest p2 (calcMax red p2.2 p2.1)

/-- Embedding of the segmented `forall_minloc( std::pair<cilk_for_segit,...>,
const HybridISet&, ...)`: thread `(min_tmp, loc_tmp)` through per-segment
dispatches, then merge with the same strict comparison. -/
def forall_minloc_seg (f : Int → Int) (segs : List Segment)
    (min0 loc0 : Int) : Int × Int :=
  minWriteback min0 loc0 (hybridMinLoop f segs (min0, loc0) none).2

/-- Embedding of the segmented `forall_maxloc` over a `HybridISet`. -/
def forall_maxloc_seg (f : Int → Int) (segs : List Segment)
    (max0 loc0 : Int) : Int × Int :=
  maxWriteback max0 loc0 (hybridMaxLoop f segs (max0, loc0) none).2

/-- Embedding of the segmented `forall_sum` over a `HybridISet`:
`nthreads` outer worker slots are zero-initialised; the segment loop
dispatches the inner `forall_sum` of each segment into the slot
`sum_tmp[__cilkrts_get_worker_number()]` of the outer worker `wseg isi`
executing that segment (the inner dispatch runs `forall_sum` on the
segment's iterable with the slot as its accumulator); the `default:` case
dispatches nothing, modelled by the inner `forall_sum` over the empty index
sequence; finally every slot is added into the caller's accumulator.
`segSumLoop` is the segment loop (`cilk_for (isi = 0; isi < num_seg; ++isi)`)
threading the slot array. -/
def segSumLoop (wseg : Nat → Nat) (f : Int → Int) :
    List Segment → Nat → (Nat → Int) → (Nat → Int)
  | [], _, t => t
  | seg :: rest, isi, t =>
      segSumLoop wseg f rest (isi + 1)
        (Function.update t (wseg isi)
          (forall_sum 1 (fun _ => 0) f (segIndices seg) (t (wseg isi))))

def forall_sum_seg (nthreads : Nat) (wseg : Nat → Nat) (f : Int → Int)
    (segs : List Segment) (sum0 : Int) : Int :=
  sum0 + ∑ i in Finset.range nthreads, segSumLoop wseg f segs 0 (fun _ => 0) i

/-- Segments obtained by partitioning the flat range `[c 0, c k)` at the cut
points `c 0 ≤ c 1 ≤ ... ≤ c k` into `k` contiguous `_Range_` segments. -/
def partitionSegs (c : Nat → Int) (k : Nat) : List Segment :=
  (List.range k).map (fun i => Segment.range (c i) (c (i + 1)))

/-- Reference fold of the minloc body over an index sequence: the sequential
specification of the `(min_tmp, loc_tmp)` pair. -/
def minFold (f : Int → Int) (idxs : List Int) (p : Int × Int) : Int × Int :=
  idxs.foldl (fun q ii => minlocBody f ii q) p

/-- Reference fold of the maxloc body over an index sequence. -/
def maxFold (f : Int → Int) (idxs : List Int) (p : Int × Int) : Int × Int :=
  idxs.foldl (fun q ii => maxlocBody f ii q) p

/-- Invariant tying the Cilk min-index reducer state to the threaded
`(min_tmp, loc_tmp)` pair: before the first offer the reducer is empty;
while no offer has improved on the caller's prior value `m0` the reducer
holds `m0` under some index; once improved, the reducer holds exactly the
current pair. -/
def MinInv (m0 l0 : Int) (p : Int × Int) (red : Option (Int × Int)) : Prop :=
  (p = (m0, l0) ∧ (red = none ∨ ∃ j, red = some (j, m0))) ∨
  (p.1 < m0 ∧ red = some (p.2, p.1))

/-- Negate the value component of a `(value, location)` pair: the maxloc
functions are the mirror image of the minloc functions under negation. -/
def negP (p : Int × Int) : Int × Int := (-p.1, p.2)

/-- Negate the value component of a reducer state (which stores
`(index, value)`). -/
def negRed (red : Option (Int × Int)) : Option (Int × Int) :=
  red.map (fun iv => (iv.1, -iv.2))

/-- Embedding of `RAJA::policy::omp::expt::forall_impl(host_res,
omp_for_schedule_exec<Schedule>, iter, loop_body, f_params)`: dispatches the
inner schedule over the iterable. It prints nothing; the first component is
the text written to standard output, the second the dispatched index
sequence. -/
def expt_forall_impl (iter : List Int) : String × List Int :=
  ("", iter)

/-- Embedding of `RAJA::policy::omp::forall_impl(host_res,
omp_parallel_exec<InnerPolicy>, iter, loop_body, f_params)`: executes
`std::cout << "param call\n";` and then delegates to `expt::forall_impl`
with the inner policy. -/
def omp_parallel_forall_impl (iter : List Int) : String × List Int :=
  ("param call\n" ++ (expt_forall_impl iter).1, (expt_forall_impl iter).2)

end RAJA

open RAJA

namespace RAJA

/-! Basic facts about the enumerated index sequences. -/

theorem mem_rangeIndices {b e i : Int} :
    i ∈ rangeIndices b e ↔ b ≤ i ∧ i < e := by
  unfold rangeIndices
  simp only [List.mem_map, List.mem_range]
  constructor
  · rintro ⟨k, hk, rfl⟩
    omega
  · rintro ⟨h1, h2⟩
    exact ⟨(i - b).toNat, by omega, by omega⟩

theorem nodup_rangeIndices (b e : Int) : (rangeIndices b e).Nodup := by
  unfold rangeIndices
  exact (List.nodup_range _).map (fun x y h => by omega)

theorem rangeIndices_empty (b e : Int) (h : e ≤ b) : rangeIndices b e = [] := by
  unfold rangeIndices
  have : (e - b).toNat = 0 := by omega
  simp [this]

theorem rangeIndices_append {b m e : Int} (h1 : b ≤ m) (h2 : m ≤ e) :
    rangeIndices b m ++ rangeIndices m e = rangeIndices b e := by
  unfold rangeIndices
  have hsplit : (e - b).toNat = (m - b).toNat + (e - m).toNat := by omega
  rw [hsplit, List.range_add, List.map_append, List.map_map]
  congr 1
  apply List.map_congr_left
  intro k _
  simp only [Function.comp_apply]
  omega

theorem numIters_lt_iff {b e s : Int} (hs : 0 < s) (k : Nat) :
    k < numIters b e s ↔ b + (k : Int) * s < e := by
  unfold numIters
  by_cases hbe : e ≤ b
  · simp only [if_pos hbe]
    constructor
    · omega
    · intro h
      exfalso
      have hks : 0 ≤ (k : Int) * s := mul_nonneg (by positivity) (le_of_lt hs)
      omega
  · simp only [if_neg hbe]
    have ha : 1 ≤ (e - b).toNat := by omega
    have hsn : 1 ≤ s.toNat := by omega
    have key : k < ((e - b).toNat + (s.toNat - 1)) / s.toNat ↔
        k * s.toNat < (e - b).toNat := by
      rw [Nat.lt_iff_add_one_le, Nat.le_div_iff_mul_le (by omega), add_mul, one_mul]
      omega
    rw [key]
    have hcast : ((k * s.toNat : Nat) : Int) = (k : Int) * s := by
      push_cast
      rw [Int.toNat_of_nonneg (le_of_lt hs)]
    constructor
    · intro h
      have := (Int.ofNat_lt.mpr h)
      rw [hcast] at this
      omega
    · intro h
      have : ((k * s.toNat : Nat) : Int) < ((e - b).toNat : Int) := by
        rw [hcast]
        omega
      exact_mod_cast this

theorem mem_strideIndices {b e s : Int} (hs : 0 < s) {i : Int} :
    i ∈ strideIndices b e s ↔ ∃ k : Nat, i = b + (k : Int) * s ∧ i < e := by
  unfold strideIndices
  simp only [List.mem_map, List.mem_range]
  constructor
  · rintro ⟨k, hk, rfl⟩
    exact ⟨k, rfl, (numIters_lt_iff hs k).mp hk⟩
  · rintro ⟨k, rfl, hlt⟩
    exact ⟨k, (numIters_lt_iff hs k).mpr hlt, rfl⟩

theorem nodup_strideIndices {b e s : Int} (hs : 0 < s) :
    (strideIndices b e s).Nodup := by
  unfold strideIndices
  refine (List.nodup_range _).map (fun x y h => ?_)
  have hxy : (x : Int) * s = (y : Int) * s := by omega
  have := mul_right_cancel₀ (ne_of_gt hs) hxy
  exact_mod_cast this

theorem strideIndices_empty (b e s : Int) (h : e ≤ b) :
    strideIndices b e s = [] := by
  unfold strideIndices numIters
  simp [if_pos h]

/-! Worker-slot accumulation: summing the slot array after a fold of
single-slot additions. -/

theorem sum_update_add {n : Nat} (t : Nat → Int) (k : Nat) (hk : k < n)
    (v : Int) :
    ∑ i in Finset.range n, Function.update t k (t k + v) i
      = (∑ i in Finset.range n, t i) + v := by
  have hk' : k ∈ Finset.range n := Finset.mem_range.mpr hk
  rw [Finset.sum_update_of_mem hk', Finset.sdiff_singleton_eq_erase,
    ← Finset.add_sum_erase _ t hk']
  ring

theorem sum_update_foldl {α : Type} (wa : α → Nat) (g : α → Int) (n : Nat) :
    ∀ (l : List α) (t0 : Nat → Int), (∀ a ∈ l, wa a < n) →
      (∑ i in Finset.range n,
        (l.foldl (fun t a => Function.update t (wa a) (t (wa a) + g a)) t0) i)
        = (∑ i in Finset.range n, t0 i) + (l.map g).sum
  | [], t0, _ => by simp
  | a :: l, t0, hb => by
      rw [List.foldl_cons,
        sum_update_foldl wa g n l _ (fun x hx => hb x (List.mem_cons_of_mem a hx)),
        sum_update_add t0 (wa a) (hb a (List.mem_cons_self a l)) (g a),
        List.map_cons, List.sum_cons]
      ring

theorem forall_sum_eq (n : Nat) (w : Int → Nat) (f : Int → Int)
    (sched : List Int) (sum0 : Int) (hb : ∀ ii ∈ sched, w ii < n) :
    forall_sum n w f sched sum0 = sum0 + (sched.map f).sum := by
  simp only [forall_sum]
  rw [sum_update_foldl w f n sched _ hb]
  simp

/-! The visitation counter computed by the flat `forall` equals the
occurrence count of each index in the executed schedule. -/

theorem visitCount_aux (sched : List Int) :
    ∀ (cnt : Int → Nat) (i : Int),
      forall_exec (fun ii c => Function.update c ii (c ii + 1)) sched cnt i
        = cnt i + sched.count i := by
  induction sched with
  | nil => intro cnt i; simp [forall_exec]
  | cons a l ih =>
      intro cnt i
      unfold forall_exec at ih ⊢
      rw [List.foldl_cons, ih]
      by_cases h : a = i
      · subst h
        simp only [Function.update_same, List.count_cons_self]
        omega
      · have h' : i ≠ a := fun hc => h hc.symm
        simp only [Function.update_noteq h', List.count_cons_of_ne h']

theorem visitCount_eq_count (sched : List Int) (i : Int) :
    visitCount sched i = sched.count i := by
  unfold visitCount
  rw [visitCount_aux]
  simp

/-! Sequential specification of the minloc loop body: a left fold of
`minlocBody` over the index sequence, on the `(value, location)` pair. -/

theorem minFold_nil (f : Int → Int) (p : Int × Int) : minFold f [] p = p := rfl

theorem minFold_cons (f : Int → Int) (ii : Int) (idxs : List Int)
    (p : Int × Int) :
    minFold f (ii :: idxs) p = minFold f idxs (minlocBody f ii p) := rfl

theorem minFold_append (f : Int → Int) (l1 l2 : List Int) (p : Int × Int) :
    minFold f (l1 ++ l2) p = minFold f l2 (minFold f l1 p) :=
  List.foldl_append _ _ _ _

/-- Either the fold leaves the pair untouched, or it strictly improves the
value and the final location is an iterated index producing the final
value. -/
theorem minFold_dichot (f : Int → Int) (idxs : List Int) :
    ∀ p : Int × Int, minFold f idxs p = p ∨
      ((minFold f idxs p).1 < p.1 ∧ (minFold f idxs p).2 ∈ idxs ∧
        f (minFold f idxs p).2 = (minFold f idxs p).1) := by
  induction idxs with
  | nil => intro p; left; rfl
  | cons ii rest ih =>
      intro p
      rw [minFold_cons]
      unfold minlocBody
      by_cases h : f ii < p.1
      · rw [if_pos h]
        rcases ih (f ii, ii) with heq | ⟨h1, h2, h3⟩
        · right
          rw [heq]
          exact ⟨h, List.mem_cons_self ii rest, rfl⟩
        · right
          exact ⟨lt_trans h1 h, List.mem_cons_of_mem ii h2, h3⟩
      · rw [if_neg h]
        rcases ih p with heq | ⟨h1, h2, h3⟩
        · left; exact heq
        · right
          exact ⟨h1, List.mem_cons_of_mem ii h2, h3⟩

/-- The folded value is a lower bound of the prior value and of every
contribution. -/
theorem minFold_le (f : Int → Int) (idxs : List Int) :
    ∀ p : Int × Int, (minFold f idxs p).1 ≤ p.1 ∧
      ∀ ii ∈ idxs, (minFold f idxs p).1 ≤ f ii := by
  induction idxs with
  | nil => intro p; exact ⟨le_refl _, fun ii h => absurd h (List.not_mem_nil ii)⟩
  | cons jj rest ih =>
      intro p
      rw [minFold_cons]
      have hb : (minlocBody f jj p).1 ≤ p.1 ∧ (minlocBody f jj p).1 ≤ f jj := by
        unfold minlocBody
        by_cases h : f jj < p.1
        · rw [if_pos h]; exact ⟨le_of_lt h, le_refl _⟩
        · rw [if_neg h]; exact ⟨le_refl _, le_of_not_lt h⟩
      refine ⟨le_trans (ih _).1 hb.1, fun ii hii => ?_⟩
      rcases List.mem_cons.mp hii with rfl | hmem
      · exact le_trans (ih _).1 hb.2
      · exact (ih _).2 ii hmem

/-- The folded value does not depend on the initial location, and when the
value strictly improves neither does the folded location. -/
theorem minFold_indep (f : Int → Int) (idxs : List Int) :
    ∀ (m0 l0 l0' : Int),
      (minFold f idxs (m0, l0)).1 = (minFold f idxs (m0, l0')).1 ∧
      ((minFold f idxs (m0, l0)).1 < m0 →
        (minFold f idxs (m0, l0)).2 = (minFold f idxs (m0, l0')).2) := by
  induction idxs with
  | nil => intro m0 l0 l0'; exact ⟨rfl, fun h => absurd h (lt_irrefl m0)⟩
  | cons ii rest ih =>
      intro m0 l0 l0'
      rw [minFold_cons, minFold_cons]
      unfold minlocBody
      by_cases h : f ii < m0
      · rw [if_pos h, if_pos h]
        exact ⟨rfl, fun _ => rfl⟩
      · rw [if_neg h, if_neg h]
        exact ih m0 l0 l0'

theorem minInv_start (m0 l0 : Int) : MinInv m0 l0 (m0, l0) none :=
  Or.inl ⟨rfl, Or.inl rfl⟩

/-- One offer `calc_min(i, q.1)` preserves the invariant, provided the step
from `p` to `q` either left the pair unchanged or strictly improved it with
`i` the new location. -/
theorem minInv_step (m0 l0 : Int) (p q : Int × Int) (red : Option (Int × Int))
    (i : Int) (h : MinInv m0 l0 p red)
    (hq : q = p ∨ (q.1 < p.1 ∧ i = q.2)) :
    MinInv m0 l0 q (calcMin red i q.1) := by
  rcases h with ⟨hp, hred | ⟨j, hred⟩⟩ | ⟨hlt, hred⟩
  · subst hred
    rcases hq with rfl | ⟨hq1, hq2⟩
    · exact Or.inl ⟨hp, Or.inr ⟨i, by simp [calcMin, hp]⟩⟩
    · right
      subst hq2
      refine ⟨by rw [hp] at hq1; exact hq1, ?_⟩
      simp [calcMin]
  · subst hred
    rcases hq with rfl | ⟨hq1, hq2⟩
    · left
      refine ⟨hp, Or.inr ⟨j, ?_⟩⟩
      simp only [calcMin]
      rw [if_neg (by rw [hp]; exact lt_irrefl m0)]
    · right
      subst hq2
      have hq1' : q.1 < m0 := by rw [hp] at hq1; exact hq1
      refine ⟨hq1', ?_⟩
      simp only [calcMin]
      rw [if_pos hq1']
  · subst hred
    rcases hq with rfl | ⟨hq1, hq2⟩
    · right
      refine ⟨hlt, ?_⟩
      simp [calcMin]
    · right
      subst hq2
      refine ⟨lt_trans hq1 hlt, ?_⟩
      simp only [calcMin]
      rw [if_pos hq1]

theorem minlocLoop_cons (f : Int → Int) (ii : Int) (rest : List Int)
    (p : Int × Int) (red : Option (Int × Int)) :
    minlocLoop f (ii :: rest) p red
      = minlocLoop f rest (minlocBody f ii p)
          (calcMin red ii (minlocBody f ii p).1) := rfl

theorem hybridMinLoop_cons (f : Int → Int) (seg : Segment)
    (rest : List Segment) (p : Int × Int) (red : Option (Int × Int)) :
    hybridMinLoop f (seg :: rest) p red
      = hybridMinLoop f rest (forall_minloc f (segIndices seg) p.1 p.2)
          (calcMin red (forall_minloc f (segIndices seg) p.1 p.2).2
            (forall_minloc f (segIndices seg) p.1 p.2).1) := rfl

/-- The `forall_minloc` loop computes the reference fold on the pair and
maintains the reducer invariant. -/
theorem minlocLoop_spec (f : Int → Int) (idxs : List Int) :
    ∀ (m0 l0 : Int) (p : Int × Int) (red : Option (Int × Int)),
      MinInv m0 l0 p red →
      (minlocLoop f idxs p red).1 = minFold f idxs p ∧
      MinInv m0 l0 (minlocLoop f idxs p red).1 (minlocLoop f idxs p red).2 := by
  induction idxs with
  | nil => intro m0 l0 p red h; exact ⟨rfl, h⟩
  | cons ii rest ih =>
      intro m0 l0 p red h
      have hstep : minlocBody f ii p = p ∨
          ((minlocBody f ii p).1 < p.1 ∧ ii = (minlocBody f ii p).2) := by
        unfold minlocBody
        by_cases hc : f ii < p.1
        · right; rw [if_pos hc]; exact ⟨hc, rfl⟩
        · left; rw [if_neg hc]
      have hinv := minInv_step m0 l0 p (minlocBody f ii p) red ii h hstep
      have := ih m0 l0 (minlocBody f ii p)
        (calcMin red ii (minlocBody f ii p).1) hinv
      exact ⟨by rw [minlocLoop_cons, minFold_cons]; exact this.1,
        by rw [minlocLoop_cons]; exact this.2⟩

/-- The write-back step of `forall_minloc` turns the invariant into the
reference fold result. -/
theorem minWriteback_some (m0 l0 i v : Int) :
    minWriteback m0 l0 (some (i, v)) = if v < m0 then (v, i) else (m0, l0) :=
  rfl

theorem minWriteback_none (m0 l0 : Int) :
    minWriteback m0 l0 none = (m0, l0) := rfl

theorem minloc_writeback (m0 l0 : Int) (p : Int × Int)
    (red : Option (Int × Int)) (h : MinInv m0 l0 p red) :
    minWriteback m0 l0 red = p := by
  rcases h with ⟨hp, hred | ⟨j, hred⟩⟩ | ⟨hlt, hred⟩
  · subst hred; exact hp.symm
  · subst hred
    rw [minWriteback_some, if_neg (lt_irrefl m0)]
    exact hp.symm
  · subst hred
    rw [minWriteback_some, if_pos hlt]

/-- Flat `forall_minloc` computes exactly the sequential reference fold of
the minloc body over its index sequence. -/
theorem forall_minloc_eq_fold (f : Int → Int) (idxs : List Int)
    (min0 loc0 : Int) :
    forall_minloc f idxs min0 loc0 = minFold f idxs (min0, loc0) := by
  unfold forall_minloc
  have h := minlocLoop_spec f idxs min0 loc0 (min0, loc0) none
    (minInv_start min0 loc0)
  rw [minloc_writeback min0 loc0 (minlocLoop f idxs (min0, loc0) none).1
    (minlocLoop f idxs (min0, loc0) none).2 h.2, h.1]

/-- The segmented `forall_minloc` loop also computes the reference fold over
the concatenated segment indices, and maintains the reducer invariant. -/
theorem hybridMinLoop_spec (f : Int → Int) (segs : List Segment) :
    ∀ (m0 l0 : Int) (p : Int × Int) (red : Option (Int × Int)),
      MinInv m0 l0 p red →
      (hybridMinLoop f segs p red).1 = minFold f (hybridIndices segs) p ∧
      MinInv m0 l0 (hybridMinLoop f segs p red).1
        (hybridMinLoop f segs p red).2 := by
  induction segs with
  | nil => intro m0 l0 p red h; exact ⟨rfl, h⟩
  | cons seg rest ih =>
      intro m0 l0 p red h
      have hinner : forall_minloc f (segIndices seg) p.1 p.2
          = minFold f (segIndices seg) p := by
        rw [forall_minloc_eq_fold]
      have hinv := minInv_step m0 l0 p (forall_minloc f (segIndices seg) p.1 p.2)
        red (forall_minloc f (segIndices seg) p.1 p.2).2 h
        (by
          rw [hinner]
          rcases minFold_dichot f (segIndices seg) p with heq | ⟨h1, _, _⟩
          · left; exact heq
          · right; exact ⟨h1, rfl⟩)
      have := ih m0 l0 (forall_minloc f (segIndices seg) p.1 p.2)
        (calcMin red (forall_minloc f (segIndices seg) p.1 p.2).2
          (forall_minloc f (segIndices seg) p.1 p.2).1) hinv
      constructor
      · rw [hybridMinLoop_cons, this.1, hinner]
        show minFold f (hybridIndices rest) (minFold f (segIndices seg) p)
          = minFold f (segIndices seg ++ hybridIndices rest) p
        rw [minFold_append]
      · rw [hybridMinLoop_cons]
        exact this.2

/-- Segmented `forall_minloc` computes exactly the sequential reference fold
over the concatenation of its segments' index sequences. -/
theorem forall_minloc_seg_eq_fold (f : Int → Int) (segs : List Segment)
    (min0 loc0 : Int) :
    forall_minloc_seg f segs min0 loc0
      = minFold f (hybridIndices segs) (min0, loc0) := by
  unfold forall_minloc_seg
  have h := hybridMinLoop_spec f segs min0 loc0 (min0, loc0) none
    (minInv_start min0 loc0)
  rw [minloc_writeback min0 loc0 (hybridMinLoop f segs (min0, loc0) none).1
    (hybridMinLoop f segs (min0, loc0) none).2 h.2, h.1]

/-! The maxloc functions are the mirror image of the minloc functions under
negation of all values: this duality transfers every minloc result. -/

theorem negP_negP (p : Int × Int) : negP (negP p) = p := by
  unfold negP
  simp

theorem negRed_negRed (red : Option (Int × Int)) : negRed (negRed red) = red := by
  unfold negRed
  cases red with
  | none => rfl
  | some iv => simp

theorem maxlocBody_dual (f : Int → Int) (ii : Int) (p : Int × Int) :
    maxlocBody f ii p = negP (minlocBody (fun i => -f i) ii (negP p)) := by
  unfold maxlocBody minlocBody negP
  by_cases h : f ii > p.1
  · rw [if_pos h, if_pos (by simpa using h)]
    simp
  · rw [if_neg h, if_neg (by simpa using h)]
    simp

theorem calcMax_dual (red : Option (Int × Int)) (i v : Int) :
    calcMax red i v = negRed (calcMin (negRed red) i (-v)) := by
  cases red with
  | none => simp [calcMax, calcMin, negRed]
  | some iv =>
      show (if v > iv.2 then some (i, v) else some iv)
        = negRed (if -v < -iv.2 then some (i, -v) else some (iv.1, -iv.2))
      by_cases h : v > iv.2
      · have h' : -v < -iv.2 := by omega
        rw [if_pos h, if_pos h']
        show some (i, v) = some (i, - -v)
        simp
      · have h' : ¬(-v < -iv.2) := by omega
        rw [if_neg h, if_neg h']
        show some iv = some (iv.1, - -iv.2)
        simp

theorem maxlocLoop_dual (f : Int → Int) (idxs : List Int) :
    ∀ (p : Int × Int) (red : Option (Int × Int)),
      maxlocLoop f idxs p red
        = (negP (minlocLoop (fun i => -f i) idxs (negP p) (negRed red)).1,
           negRed (minlocLoop (fun i => -f i) idxs (negP p) (negRed red)).2) := by
  induction idxs with
  | nil => intro p red; simp [maxlocLoop, minlocLoop, negP_negP, negRed_negRed]
  | cons ii rest ih =>
      intro p red
      show maxlocLoop f rest (maxlocBody f ii p)
          (calcMax red ii (maxlocBody f ii p).1) = _
      rw [ih, maxlocBody_dual f ii p, calcMax_dual]
      have h1 : negP (negP (minlocBody (fun i => -f i) ii (negP p)))
          = minlocBody (fun i => -f i) ii (negP p) := negP_negP _
      rw [h1]
      have h2 : -(negP (minlocBody (fun i => -f i) ii (negP p))).1
          = (minlocBody (fun i => -f i) ii (negP p)).1 := by
        unfold negP; simp
      rw [h2, negRed_negRed]
      rfl

theorem maxFold_dual (f : Int → Int) (idxs : List Int) :
    ∀ p : Int × Int,
      maxFold f idxs p = negP (minFold (fun i => -f i) idxs (negP p)) := by
  induction idxs with
  | nil => intro p; rw [minFold_nil, negP_negP]; rfl
  | cons ii rest ih =>
      intro p
      show maxFold f rest (maxlocBody f ii p) = _
      rw [ih, maxlocBody_dual f ii p, negP_negP, minFold_cons]

theorem maxWriteback_dual (m0 l0 : Int) (red : Option (Int × Int)) :
    maxWriteback m0 l0 red = negP (minWriteback (-m0) l0 (negRed red)) := by
  cases red with
  | none =>
      show (m0, l0) = negP (-m0, l0)
      unfold negP
      simp
  | some iv =>
      show (if iv.2 > m0 then (iv.2, iv.1) else (m0, l0))
        = negP (if -iv.2 < -m0 then (-iv.2, iv.1) else (-m0, l0))
      by_cases h : iv.2 > m0
      · have h' : -iv.2 < -m0 := by omega
        rw [if_pos h, if_pos h']
        show (iv.2, iv.1) = (- -iv.2, iv.1)
        simp
      · have h' : ¬(-iv.2 < -m0) := by omega
        rw [if_neg h, if_neg h']
        show (m0, l0) = (- -m0, l0)
        simp

theorem forall_maxloc_dual (f : Int → Int) (idxs : List Int) (m0 l0 : Int) :
    forall_maxloc f idxs m0 l0
      = negP (forall_minloc (fun i => -f i) idxs (-m0) l0) := by
  unfold forall_maxloc forall_minloc
  rw [maxWriteback_dual, maxlocLoop_dual, negRed_negRed]
  rfl

/-- Flat `forall_maxloc` computes exactly the sequential reference fold of
the maxloc body over its index sequence. -/
theorem forall_maxloc_eq_fold (f : Int → Int) (idxs : List Int)
    (max0 loc0 : Int) :
    forall_maxloc f idxs max0 loc0 = maxFold f idxs (max0, loc0) := by
  rw [forall_maxloc_dual, forall_minloc_eq_fold, maxFold_dual]
  rfl

theorem hybridMaxLoop_dual (f : Int → Int) (segs : List Segment) :
    ∀ (p : Int × Int) (red : Option (Int × Int)),
      hybridMaxLoop f segs p red
        = (negP (hybridMinLoop (fun i => -f i) segs (negP p) (negRed red)).1,
           negRed (hybridMinLoop (fun i => -f i) segs (negP p) (negRed red)).2) := by
  induction segs with
  | nil => intro p red; simp [hybridMaxLoop, hybridMinLoop, negP_negP, negRed_negRed]
  | cons seg rest ih =>
      intro p red
      show hybridMaxLoop f rest (forall_maxloc f (segIndices seg) p.1 p.2)
          (calcMax red (forall_maxloc f (segIndices seg) p.1 p.2).2
            (forall_maxloc f (segIndices seg) p.1 p.2).1) = _
      rw [ih, calcMax_dual, forall_maxloc_dual]
      have hp : negP p = (-p.1, p.2) := rfl
      have h1 : negP (negP (forall_minloc (fun i => -f i) (segIndices seg)
          (-p.1) p.2)) = forall_minloc (fun i => -f i) (segIndices seg)
          (-p.1) p.2 := negP_negP _
      rw [h1]
      have h2 : -(negP (forall_minloc (fun i => -f i) (segIndices seg)
          (-p.1) p.2)).1 = (forall_minloc (fun i => -f i) (segIndices seg)
          (-p.1) p.2).1 := by
        unfold negP; simp
      have h3 : (negP (forall_minloc (fun i => -f i) (segIndices seg)
          (-p.1) p.2)).2 = (forall_minloc (fun i => -f i) (segIndices seg)
          (-p.1) p.2).2 := rfl
      rw [h2, h3, hp, negRed_negRed]
      rfl

theorem forall_maxloc_seg_dual (f : Int → Int) (segs : List Segment)
    (m0 l0 : Int) :
    forall_maxloc_seg f segs m0 l0
      = negP (forall_minloc_seg (fun i => -f i) segs (-m0) l0) := by
  unfold forall_maxloc_seg forall_minloc_seg
  rw [maxWriteback_dual, hybridMaxLoop_dual, negRed_negRed]
  rfl

/-- Segmented `forall_maxloc` computes exactly the sequential reference fold
over the concatenation of its segments' index sequences. -/
theorem forall_maxloc_seg_eq_fold (f : Int → Int) (segs : List Segment)
    (max0 loc0 : Int) :
    forall_maxloc_seg f segs max0 loc0
      = maxFold f (hybridIndices segs) (max0, loc0) := by
  rw [forall_maxloc_seg_dual, forall_minloc_seg_eq_fold, maxFold_dual]
  rfl

/-! Characterisations of `maxFold`, transferred from `minFold` through the
duality. -/

theorem maxFold_dichot (f : Int → Int) (idxs : List Int) (p : Int × Int) :
    maxFold f idxs p = p ∨
      ((maxFold f idxs p).1 > p.1 ∧ (maxFold f idxs p).2 ∈ idxs ∧
        f (maxFold f idxs p).2 = (maxFold f idxs p).1) := by
  rw [maxFold_dual]
  rcases minFold_dichot (fun i => -f i) idxs (negP p) with heq | ⟨h1, h2, h3⟩
  · left; rw [heq, negP_negP]
  · right
    refine ⟨?_, h2, ?_⟩
    · show -(minFold (fun i => -f i) idxs (negP p)).1 > p.1
      have : (negP p).1 = -p.1 := rfl
      omega
    · show f (minFold (fun i => -f i) idxs (negP p)).2
        = -(minFold (fun i => -f i) idxs (negP p)).1
      omega

theorem maxFold_ge (f : Int → Int) (idxs : List Int) (p : Int × Int) :
    p.1 ≤ (maxFold f idxs p).1 ∧ ∀ ii ∈ idxs, f ii ≤ (maxFold f idxs p).1 := by
  rw [maxFold_dual]
  have h := minFold_le (fun i => -f i) idxs (negP p)
  refine ⟨?_, fun ii hii => ?_⟩
  · show p.1 ≤ -(minFold (fun i => -f i) idxs (negP p)).1
    have h1 := h.1
    have : (negP p).1 = -p.1 := rfl
    omega
  · show f ii ≤ -(minFold (fun i => -f i) idxs (negP p)).1
    have h2 := h.2 ii hii
    omega

theorem maxFold_indep (f : Int → Int) (idxs : List Int) (m0 l0 l0' : Int) :
    (maxFold f idxs (m0, l0)).1 = (maxFold f idxs (m0, l0')).1 ∧
    (m0 < (maxFold f idxs (m0, l0)).1 →
      (maxFold f idxs (m0, l0)).2 = (maxFold f idxs (m0, l0')).2) := by
  rw [maxFold_dual, maxFold_dual]
  have hp : negP (m0, l0) = (-m0, l0) := rfl
  have hp' : negP (m0, l0') = (-m0, l0') := rfl
  rw [hp, hp']
  have h := minFold_indep (fun i => -f i) idxs (-m0) l0 l0'
  refine ⟨?_, fun hlt => ?_⟩
  · show -(minFold (fun i => -f i) idxs (-m0, l0)).1
      = -(minFold (fun i => -f i) idxs (-m0, l0')).1
    omega
  · show (minFold (fun i => -f i) idxs (-m0, l0)).2
      = (minFold (fun i => -f i) idxs (-m0, l0')).2
    apply h.2
    have : m0 < -(minFold (fun i => -f i) idxs (-m0, l0)).1 := hlt
    omega

/-! Segmented collections: concatenation and partition facts. -/

theorem hybridIndices_append (s1 s2 : List Segment) :
    hybridIndices (s1 ++ s2) = hybridIndices s1 ++ hybridIndices s2 := by
  induction s1 with
  | nil => rfl
  | cons seg rest ih =>
      show segIndices seg ++ hybridIndices (rest ++ s2) = _
      rw [ih]
      exact (List.append_assoc _ _ _).symm

theorem cuts_le (c : Nat → Int) :
    ∀ k : Nat, (∀ i < k, c i ≤ c (i + 1)) → c 0 ≤ c k
  | 0, _ => le_refl _
  | k + 1, hm =>
      le_trans (cuts_le c k (fun i hi => hm i (Nat.lt_succ_of_lt hi)))
        (hm k (Nat.lt_succ_self k))

/-- The concatenated index sequence of the partition of a flat range into
contiguous segments is exactly the flat range's index sequence. -/
theorem hybridIndices_partition (c : Nat → Int) :
    ∀ k : Nat, (∀ i < k, c i ≤ c (i + 1)) →
      hybridIndices (partitionSegs c k) = rangeIndices (c 0) (c k)
  | 0, _ => by
      show ([] : List Int) = rangeIndices (c 0) (c 0)
      rw [rangeIndices_empty (c 0) (c 0) (le_refl _)]
  | k + 1, hm => by
      have hmk : ∀ i < k, c i ≤ c (i + 1) := fun i hi => hm i (Nat.lt_succ_of_lt hi)
      unfold partitionSegs
      rw [List.range_succ, List.map_append]
      rw [hybridIndices_append]
      have h1 : hybridIndices (List.map
            (fun i => Segment.range (c i) (c (i + 1))) (List.range k))
          = rangeIndices (c 0) (c k) := hybridIndices_partition c k hmk
      have h2 : hybridIndices (List.map
            (fun i => Segment.range (c i) (c (i + 1))) [k])
          = rangeIndices (c k) (c (k + 1)) := by
        show rangeIndices (c k) (c (k + 1)) ++ [] = _
        rw [List.append_nil]
      rw [h1, h2,
        rangeIndices_append (cuts_le c k hmk) (hm k (Nat.lt_succ_self k))]

/-- The sum of all contributions over a hybrid index set equals the sum of
the per-segment totals. -/
theorem hybrid_total (f : Int → Int) :
    ∀ segs : List Segment,
      ((hybridIndices segs).map f).sum
        = (segs.map (fun seg => ((segIndices seg).map f).sum)).sum
  | [] => rfl
  | seg :: rest => by
      show (((segIndices seg ++ hybridIndices rest).map f).sum) = _
      rw [List.map_append, List.sum_append, List.map_cons, List.sum_cons,
        hybrid_total f rest]

theorem segSumLoop_sum (wseg : Nat → Nat) (f : Int → Int) (n : Nat) :
    ∀ (segs : List Segment) (isi : Nat) (t : Nat → Int),
      (∀ j, isi ≤ j → j < isi + segs.length → wseg j < n) →
      ∑ i in Finset.range n, segSumLoop wseg f segs isi t i
        = (∑ i in Finset.range n, t i)
          + (segs.map (fun seg => ((segIndices seg).map f).sum)).sum
  | [], isi, t, _ => by simp [segSumLoop]
  | seg :: rest, isi, t, hb => by
      show ∑ i in Finset.range n, segSumLoop wseg f rest (isi + 1)
          (Function.update t (wseg isi)
            (forall_sum 1 (fun _ => 0) f (segIndices seg) (t (wseg isi)))) i = _
      rw [segSumLoop_sum wseg f n rest (isi + 1) _
        (fun j h1 h2 => hb j (by omega) (by simp at h2 ⊢; omega))]
      rw [forall_sum_eq 1 (fun _ => 0) f (segIndices seg) (t (wseg isi))
        (fun ii _ => Nat.zero_lt_one)]
      rw [sum_update_add t (wseg isi)
        (hb isi (le_refl isi) (by simp)) _]
      rw [List.map_cons, List.sum_cons]
      ring

/-- The segmented `forall_sum` adds exactly the total contribution of all
its segments into the caller's accumulator. -/
theorem forall_sum_seg_eq (n : Nat) (wseg : Nat → Nat) (f : Int → Int)
    (segs : List Segment) (sum0 : Int)
    (hb : ∀ j < segs.length, wseg j < n) :
    forall_sum_seg n wseg f segs sum0
      = sum0 + ((hybridIndices segs).map f).sum := by
  unfold forall_sum_seg
  rw [segSumLoop_sum wseg f n segs 0 _ (fun j _ h2 => hb j (by omega)),
    hybrid_total]
  simp

/-! Claim theorems. -/

/-- C1: Sum reduction: for every range (or strided range, or indirection
list) and every scheduling-mode policy — modelled by an arbitrary worker
count `n`, worker assignment `w`, and execution order `sched` that is a
permutation of the canonical index sequence — after `forall_sum` returns,
the caller's accumulator equals its prior value plus the arithmetic sum of
all per-index contributions produced by the loop body. -/
theorem sum_reduction_correct (n : Nat) (w : Int → Nat) (f : Int → Int)
    (sum0 : Int) :
    (∀ (b e : Int) (sched : List Int), sched.Perm (rangeIndices b e) →
      (∀ ii ∈ sched, w ii < n) →
      forall_sum n w f sched sum0 = sum0 + ((rangeIndices b e).map f).sum)
    ∧ (∀ (b e s : Int) (sched : List Int), sched.Perm (strideIndices b e s) →
      (∀ ii ∈ sched, w ii < n) →
      forall_sum n w f sched sum0 = sum0 + ((strideIndices b e s).map f).sum)
    ∧ (∀ (idx sched : List Int), sched.Perm idx →
      (∀ ii ∈ sched, w ii < n) →
      forall_sum n w f sched sum0 = sum0 + (idx.map f).sum) := by
  refine ⟨fun b e sched hp hb => ?_, fun b e s sched hp hb => ?_,
    fun idx sched hp hb => ?_⟩
  all_goals rw [forall_sum_eq n w f sched sum0 hb, (hp.map f).sum_eq]

/-- Witness for C1 at a concrete input: two workers, an out-of-order
schedule of the indirection list `[0,1,2,3]`, contributions `ii * ii`. -/
theorem sum_reduction_correct_witness :
    ([3, 1, 2, 0] : List Int).Perm [0, 1, 2, 3] ∧
    (∀ ii ∈ ([3, 1, 2, 0] : List Int), ii.toNat % 2 < 2) ∧
    forall_sum 2 (fun ii => ii.toNat % 2) (fun ii => ii * ii) [3, 1, 2, 0] 5
      = 5 + (([0, 1, 2, 3] : List Int).map (fun ii => ii * ii)).sum :=
  ⟨by decide, by decide,
    (sum_reduction_correct 2 (fun ii => ii.toNat % 2) (fun ii => ii * ii)
      5).2.2 [0, 1, 2, 3] [3, 1, 2, 0] (by decide) (by decide)⟩

/-- C5: Exactly-once visitation, contiguous: for every non-empty contiguous
range `[b, e)` and every scheduling-mode policy (modelled by an arbitrary
permutation `sched` of the enumerated indices), the flat iteration's
visitation counter is one exactly at the indices `b ≤ i < e` and zero
elsewhere. -/
theorem flat_range_exactly_once (b e : Int) (hne : b < e)
    (sched : List Int) (hp : sched.Perm (rangeIndices b e)) (i : Int) :
    visitCount sched i = if b ≤ i ∧ i < e then 1 else 0 := by
  rw [visitCount_eq_count, hp.count_eq]
  by_cases h : b ≤ i ∧ i < e
  · rw [if_pos h]
    exact List.count_eq_one_of_mem (nodup_rangeIndices b e)
      (mem_rangeIndices.mpr h)
  · rw [if_neg h]
    exact List.count_eq_zero.mpr (fun hm => h (mem_rangeIndices.mp hm))

/-- Witness for C5 at the range `[0, 3)` executed in the shuffled order
`[2, 0, 1]`, checked at index `1`. -/
theorem flat_range_exactly_once_witness :
    (0 : Int) < 3 ∧ ([2, 0, 1] : List Int).Perm (rangeIndices 0 3) ∧
    visitCount [2, 0, 1] 1 = if (0 : Int) ≤ 1 ∧ (1 : Int) < 3 then 1 else 0 :=
  ⟨by decide, by decide,
    flat_range_exactly_once 0 3 (by decide) [2, 0, 1] (by decide) 1⟩

/-- C6: Exactly-once visitation, strided: for every non-empty strided range
with positive stride and every execution order, the visitation counter is
one exactly at the enumerated indices and zero elsewhere, and the
enumerated indices are exactly `{ b, b+s, b+2*s, ... }` strictly below
`e`. -/
theorem flat_stride_exactly_once (b e s : Int) (hs : 0 < s) (hne : b < e)
    (sched : List Int) (hp : sched.Perm (strideIndices b e s)) (i : Int) :
    (visitCount sched i = if i ∈ strideIndices b e s then 1 else 0)
    ∧ (i ∈ strideIndices b e s ↔
        ∃ k : Nat, i = b + (k : Int) * s ∧ i < e) := by
  constructor
  · rw [visitCount_eq_count, hp.count_eq]
    by_cases h : i ∈ strideIndices b e s
    · rw [if_pos h]
      exact List.count_eq_one_of_mem (nodup_strideIndices hs) h
    · rw [if_neg h]
      exact List.count_eq_zero.mpr h
  · exact mem_strideIndices hs

/-- Witness for C6 at the strided range `begin 1, end 8, stride 3`
(indices `1, 4, 7`) executed in the shuffled order `[7, 1, 4]`, checked at
index `4`. -/
theorem flat_stride_exactly_once_witness :
    (0 : Int) < 3 ∧ (1 : Int) < 8 ∧
    ([7, 1, 4] : List Int).Perm (strideIndices 1 8 3) ∧
    ((visitCount [7, 1, 4] 4 = if (4 : Int) ∈ strideIndices 1 8 3 then 1 else 0)
      ∧ ((4 : Int) ∈ strideIndices 1 8 3 ↔
          ∃ k : Nat, (4 : Int) = 1 + (k : Int) * 3 ∧ (4 : Int) < 8)) :=
  ⟨by decide, by decide, by decide,
    flat_stride_exactly_once 1 8 3 (by decide) (by decide) [7, 1, 4]
      (by decide) 4⟩

/-- C7: Empty-collection property: an empty iterable (`begin == end`, or
length 0) enumerates no indices, so every flat and reduction variant
performs zero loop-body invocations and leaves the caller's accumulators
(sum, value, and location) unchanged. -/
theorem empty_collection_noop {σ : Type} (loop_body : Int → σ → σ) (st : σ)
    (b s : Int) (n : Nat) (w : Int → Nat) (f : Int → Int)
    (sum0 m0 l0 M0 L0 : Int) :
    rangeIndices b b = [] ∧ strideIndices b b s = [] ∧
    forall_exec loop_body [] st = st ∧
    forall_sum n w f [] sum0 = sum0 ∧
    forall_minloc f [] m0 l0 = (m0, l0) ∧
    forall_maxloc f [] M0 L0 = (M0, L0) := by
  refine ⟨rangeIndices_empty b b (le_refl b),
    strideIndices_empty b b s (le_refl b), rfl, ?_, ?_, ?_⟩
  · rw [forall_sum_eq n w f [] sum0 (fun ii h => absurd h (List.not_mem_nil ii))]
    simp
  · rw [forall_minloc_eq_fold, minFold_nil]
  · rw [forall_maxloc_eq_fold]
    rfl

/-- C2: Minloc/maxloc reduction: for every non-empty range, the final value
of `forall_minloc` (resp. `forall_maxloc`) is the true minimum (resp.
maximum) of all per-index contributed values compared against the caller's
prior accumulator, and whenever the merge writes the pair back (final value
strictly better than the prior), the reported location is an index of the
range whose contribution equals that extreme value. -/
theorem minloc_maxloc_value_correct (f : Int → Int) (b e : Int) (hne : b < e)
    (m0 l0 M0 L0 : Int) :
    ((forall_minloc f (rangeIndices b e) m0 l0).1 ≤ m0
      ∧ (∀ ii ∈ rangeIndices b e,
          (forall_minloc f (rangeIndices b e) m0 l0).1 ≤ f ii)
      ∧ ((forall_minloc f (rangeIndices b e) m0 l0).1 = m0
          ∨ ∃ ii ∈ rangeIndices b e,
              f ii = (forall_minloc f (rangeIndices b e) m0 l0).1)
      ∧ ((forall_minloc f (rangeIndices b e) m0 l0).1 < m0 →
          (forall_minloc f (rangeIndices b e) m0 l0).2 ∈ rangeIndices b e
          ∧ f (forall_minloc f (rangeIndices b e) m0 l0).2
              = (forall_minloc f (rangeIndices b e) m0 l0).1))
    ∧ (M0 ≤ (forall_maxloc f (rangeIndices b e) M0 L0).1
      ∧ (∀ ii ∈ rangeIndices b e,
          f ii ≤ (forall_maxloc f (rangeIndices b e) M0 L0).1)
      ∧ ((forall_maxloc f (rangeIndices b e) M0 L0).1 = M0
          ∨ ∃ ii ∈ rangeIndices b e,
              f ii = (forall_maxloc f (rangeIndices b e) M0 L0).1)
      ∧ (M0 < (forall_maxloc f (rangeIndices b e) M0 L0).1 →
          (forall_maxloc f (rangeIndices b e) M0 L0).2 ∈ rangeIndices b e
          ∧ f (forall_maxloc f (rangeIndices b e) M0 L0).2
              = (forall_maxloc f (rangeIndices b e) M0 L0).1)) := by
  rw [forall_minloc_eq_fold, forall_maxloc_eq_fold]
  constructor
  · have hle := minFold_le f (rangeIndices b e) (m0, l0)
    have hd := minFold_dichot f (rangeIndices b e) (m0, l0)
    refine ⟨hle.1, hle.2, ?_, ?_⟩
    · rcases hd with heq | ⟨h1, h2, h3⟩
      · left; rw [heq]
      · right; exact ⟨_, h2, h3⟩
    · intro hlt
      rcases hd with heq | ⟨h1, h2, h3⟩
      · rw [heq] at hlt; exact absurd hlt (lt_irrefl m0)
      · exact ⟨h2, h3⟩
  · have hge := maxFold_ge f (rangeIndices b e) (M0, L0)
    have hd := maxFold_dichot f (rangeIndices b e) (M0, L0)
    refine ⟨hge.1, hge.2, ?_, ?_⟩
    · rcases hd with heq | ⟨h1, h2, h3⟩
      · left; rw [heq]
      · right; exact ⟨_, h2, h3⟩
    · intro hlt
      rcases hd with heq | ⟨h1, h2, h3⟩
      · rw [heq] at hlt; exact absurd hlt (lt_irrefl M0)
      · exact ⟨h2, h3⟩

/-- Witness for C2 at the range `[0, 4)` with contributions `f ii = 10 - ii`,
prior minimum `20` at location `-1` and prior maximum `5` at location
`-1`. -/
theorem minloc_maxloc_value_correct_witness :
    (0 : Int) < 4 ∧
    ((forall_minloc (fun ii => 10 - ii) (rangeIndices 0 4) 20 (-1)).1 ≤ 20
      ∧ (∀ ii ∈ rangeIndices 0 4,
          (forall_minloc (fun ii => 10 - ii) (rangeIndices 0 4) 20 (-1)).1
            ≤ 10 - ii)
      ∧ ((forall_minloc (fun ii => 10 - ii) (rangeIndices 0 4) 20 (-1)).1 = 20
          ∨ ∃ ii ∈ rangeIndices 0 4,
              10 - ii
                = (forall_minloc (fun ii => 10 - ii) (rangeIndices 0 4) 20 (-1)).1)
      ∧ ((forall_minloc (fun ii => 10 - ii) (rangeIndices 0 4) 20 (-1)).1 < 20 →
          (forall_minloc (fun ii => 10 - ii) (rangeIndices 0 4) 20 (-1)).2
              ∈ rangeIndices 0 4
          ∧ 10 - (forall_minloc (fun ii => 10 - ii) (rangeIndices 0 4) 20 (-1)).2
              = (forall_minloc (fun ii => 10 - ii) (rangeIndices 0 4) 20 (-1)).1))
    ∧ ((5 : Int) ≤ (forall_maxloc (fun ii => 10 - ii) (rangeIndices 0 4) 5 (-1)).1
      ∧ (∀ ii ∈ rangeIndices 0 4,
          10 - ii ≤ (forall_maxloc (fun ii => 10 - ii) (rangeIndices 0 4) 5 (-1)).1)
      ∧ ((forall_maxloc (fun ii => 10 - ii) (rangeIndices 0 4) 5 (-1)).1 = 5
          ∨ ∃ ii ∈ rangeIndices 0 4,
              10 - ii
                = (forall_maxloc (fun ii => 10 - ii) (rangeIndices 0 4) 5 (-1)).1)
      ∧ ((5 : Int) < (forall_maxloc (fun ii => 10 - ii) (rangeIndices 0 4) 5 (-1)).1 →
          (forall_maxloc (fun ii => 10 - ii) (rangeIndices 0 4) 5 (-1)).2
              ∈ rangeIndices 0 4
          ∧ 10 - (forall_maxloc (fun ii => 10 - ii) (rangeIndices 0 4) 5 (-1)).2
              = (forall_maxloc (fun ii => 10 - ii) (rangeIndices 0 4) 5 (-1)).1)) :=
  ⟨by decide,
    minloc_maxloc_value_correct (fun ii => 10 - ii) 0 4 (by decide) 20 (-1) 5 (-1)⟩

/-- C3: Minloc merge conditional: `forall_minloc` updates the caller's
value and location together if and only if some contribution (hence the
best candidate) is strictly smaller than the caller's current best;
otherwise both are left unchanged. `forall_maxloc` behaves symmetrically
with the strictly-greater comparison. -/
theorem minloc_maxloc_merge_conditional (f : Int → Int) (idxs : List Int)
    (m0 l0 M0 L0 : Int) :
    ((∃ ii ∈ idxs, f ii < m0) →
      (forall_minloc f idxs m0 l0).1 < m0
      ∧ (forall_minloc f idxs m0 l0).2 ∈ idxs
      ∧ f (forall_minloc f idxs m0 l0).2 = (forall_minloc f idxs m0 l0).1)
    ∧ ((¬ ∃ ii ∈ idxs, f ii < m0) → forall_minloc f idxs m0 l0 = (m0, l0))
    ∧ ((∃ ii ∈ idxs, M0 < f ii) →
      M0 < (forall_maxloc f idxs M0 L0).1
      ∧ (forall_maxloc f idxs M0 L0).2 ∈ idxs
      ∧ f (forall_maxloc f idxs M0 L0).2 = (forall_maxloc f idxs M0 L0).1)
    ∧ ((¬ ∃ ii ∈ idxs, M0 < f ii) → forall_maxloc f idxs M0 L0 = (M0, L0)) := by
  rw [forall_minloc_eq_fold, forall_maxloc_eq_fold]
  refine ⟨?_, ?_, ?_, ?_⟩
  · rintro ⟨ii, hmem, hlt⟩
    have hle := minFold_le f idxs (m0, l0)
    have hlt' : (minFold f idxs (m0, l0)).1 < m0 :=
      lt_of_le_of_lt (hle.2 ii hmem) hlt
    rcases minFold_dichot f idxs (m0, l0) with heq | ⟨h1, h2, h3⟩
    · rw [heq] at hlt'; exact absurd hlt' (lt_irrefl m0)
    · exact ⟨hlt', h2, h3⟩
  · intro hno
    rcases minFold_dichot f idxs (m0, l0) with heq | ⟨h1, h2, h3⟩
    · exact heq
    · exact absurd ⟨_, h2, by omega⟩ hno
  · rintro ⟨ii, hmem, hlt⟩
    have hge := maxFold_ge f idxs (M0, L0)
    have hlt' : M0 < (maxFold f idxs (M0, L0)).1 :=
      lt_of_lt_of_le hlt (hge.2 ii hmem)
    rcases maxFold_dichot f idxs (M0, L0) with heq | ⟨h1, h2, h3⟩
    · rw [heq] at hlt'; exact absurd hlt' (lt_irrefl M0)
    · exact ⟨hlt', h2, h3⟩
  · intro hno
    rcases maxFold_dichot f idxs (M0, L0) with heq | ⟨h1, h2, h3⟩
    · exact heq
    · exact absurd ⟨_, h2, by omega⟩ hno

/-- Witness for C3: over indices `[0, 1, 2]` with contributions `ii - 1`,
a prior minimum `0` that index 0's contribution `-1` improves (update
taken), and a prior maximum `10` that no contribution exceeds (both
accumulators left unchanged). -/
theorem minloc_maxloc_merge_conditional_witness :
    (∃ ii ∈ ([0, 1, 2] : List Int), ii - 1 < 0) ∧
    ((forall_minloc (fun ii => ii - 1) [0, 1, 2] 0 (-7)).1 < 0
      ∧ (forall_minloc (fun ii => ii - 1) [0, 1, 2] 0 (-7)).2 ∈ ([0, 1, 2] : List Int)
      ∧ (forall_minloc (fun ii => ii - 1) [0, 1, 2] 0 (-7)).2 - 1
          = (forall_minloc (fun ii => ii - 1) [0, 1, 2] 0 (-7)).1) ∧
    (¬ ∃ ii ∈ ([0, 1, 2] : List Int), (10 : Int) < ii - 1) ∧
    forall_maxloc (fun ii => ii - 1) [0, 1, 2] 10 (-7) = (10, -7) :=
  ⟨by decide,
    (minloc_maxloc_merge_conditional (fun ii => ii - 1) [0, 1, 2] 0 (-7) 10
      (-7)).1 (by decide),
    by decide,
    (minloc_maxloc_merge_conditional (fun ii => ii - 1) [0, 1, 2] 0 (-7) 10
      (-7)).2.2.2 (by decide)⟩

/-- C10: whenever flat `forall_minloc` (resp. `forall_maxloc`) over the
range `[b, e)` updates the caller's location (final value strictly better
than the prior), the written location is an index actually iterated
(`b ≤ loc < e`); the caller's initial location value never influences the
resulting extreme value and never influences the updated location. -/
theorem minloc_maxloc_location_provenance (f : Int → Int)
    (b e m0 l0 l0' M0 L0 L0' : Int) :
    ((forall_minloc f (rangeIndices b e) m0 l0).1
        = (forall_minloc f (rangeIndices b e) m0 l0').1
      ∧ ((forall_minloc f (rangeIndices b e) m0 l0).1 < m0 →
          (b ≤ (forall_minloc f (rangeIndices b e) m0 l0).2
            ∧ (forall_minloc f (rangeIndices b e) m0 l0).2 < e)
          ∧ (forall_minloc f (rangeIndices b e) m0 l0).2
              = (forall_minloc f (rangeIndices b e) m0 l0').2))
    ∧ ((forall_maxloc f (rangeIndices b e) M0 L0).1
        = (forall_maxloc f (rangeIndices b e) M0 L0').1
      ∧ (M0 < (forall_maxloc f (rangeIndices b e) M0 L0).1 →
          (b ≤ (forall_maxloc f (rangeIndices b e) M0 L0).2
            ∧ (forall_maxloc f (rangeIndices b e) M0 L0).2 < e)
          ∧ (forall_maxloc f (rangeIndices b e) M0 L0).2
              = (forall_maxloc f (rangeIndices b e) M0 L0').2)) := by
  rw [forall_minloc_eq_fold, forall_minloc_eq_fold, forall_maxloc_eq_fold,
    forall_maxloc_eq_fold]
  constructor
  · have hi := minFold_indep f (rangeIndices b e) m0 l0 l0'
    refine ⟨hi.1, fun hlt => ⟨?_, hi.2 hlt⟩⟩
    rcases minFold_dichot f (rangeIndices b e) (m0, l0) with heq | ⟨h1, h2, h3⟩
    · rw [heq] at hlt; exact absurd hlt (lt_irrefl m0)
    · exact mem_rangeIndices.mp h2
  · have hi := maxFold_indep f (rangeIndices b e) M0 L0 L0'
    refine ⟨hi.1, fun hlt => ⟨?_, hi.2 hlt⟩⟩
    rcases maxFold_dichot f (rangeIndices b e) (M0, L0) with heq | ⟨h1, h2, h3⟩
    · rw [heq] at hlt; exact absurd hlt (lt_irrefl M0)
    · exact mem_rangeIndices.mp h2

/-- Witness for C10 at the range `[0, 3)`, contributions `-ii`, prior
minimum `0` with two different initial locations `-5` and `99`, prior
maximum `0` with initial locations `-5` and `99`. -/
theorem minloc_maxloc_location_provenance_witness :
    ((forall_minloc (fun ii => -ii) (rangeIndices 0 3) 0 (-5)).1
        = (forall_minloc (fun ii => -ii) (rangeIndices 0 3) 0 99).1
      ∧ ((forall_minloc (fun ii => -ii) (rangeIndices 0 3) 0 (-5)).1 < 0 →
          ((0 : Int) ≤ (forall_minloc (fun ii => -ii) (rangeIndices 0 3) 0 (-5)).2
            ∧ (forall_minloc (fun ii => -ii) (rangeIndices 0 3) 0 (-5)).2 < 3)
          ∧ (forall_minloc (fun ii => -ii) (rangeIndices 0 3) 0 (-5)).2
              = (forall_minloc (fun ii => -ii) (rangeIndices 0 3) 0 99).2))
    ∧ ((forall_maxloc (fun ii => -ii) (rangeIndices 0 3) 0 (-5)).1
        = (forall_maxloc (fun ii => -ii) (rangeIndices 0 3) 0 99).1
      ∧ ((0 : Int) < (forall_maxloc (fun ii => -ii) (rangeIndices 0 3) 0 (-5)).1 →
          ((0 : Int) ≤ (forall_maxloc (fun ii => -ii) (rangeIndices 0 3) 0 (-5)).2
            ∧ (forall_maxloc (fun ii => -ii) (rangeIndices 0 3) 0 (-5)).2 < 3)
          ∧ (forall_maxloc (fun ii => -ii) (rangeIndices 0 3) 0 (-5)).2
              = (forall_maxloc (fun ii => -ii) (rangeIndices 0 3) 0 99).2)) :=
  minloc_maxloc_location_provenance (fun ii => -ii) 0 3 0 (-5) 99 0 (-5) 99

/-- C4: Segmented-dispatch equivalence: partition the flat range
`[c 0, c k)` into `k ≥ 1` contiguous segments at monotone cut points; the
segmented dispatch visits exactly the flat range's index sequence, and the
segmented sum, minloc, and maxloc dispatches produce the same final
accumulator values as the corresponding flat dispatch over the
unpartitioned range. -/
theorem segmented_dispatch_equiv (c : Nat → Int) (k : Nat) (hk : 1 ≤ k)
    (hm : ∀ i < k, c i ≤ c (i + 1)) (f : Int → Int)
    (n : Nat) (wseg : Nat → Nat) (hbs : ∀ j < k, wseg j < n)
    (nf : Nat) (wf : Int → Nat)
    (hbf : ∀ ii ∈ rangeIndices (c 0) (c k), wf ii < nf)
    (sum0 m0 l0 M0 L0 : Int) :
    hybridIndices (partitionSegs c k) = rangeIndices (c 0) (c k)
    ∧ forall_sum_seg n wseg f (partitionSegs c k) sum0
        = forall_sum nf wf f (rangeIndices (c 0) (c k)) sum0
    ∧ forall_minloc_seg f (partitionSegs c k) m0 l0
        = forall_minloc f (rangeIndices (c 0) (c k)) m0 l0
    ∧ forall_maxloc_seg f (partitionSegs c k) M0 L0
        = forall_maxloc f (rangeIndices (c 0) (c k)) M0 L0 := by
  have hpart := hybridIndices_partition c k hm
  have hlen : (partitionSegs c k).length = k := by
    unfold partitionSegs
    rw [List.length_map, List.length_range]
  refine ⟨hpart, ?_, ?_, ?_⟩
  · rw [forall_sum_seg_eq n wseg f (partitionSegs c k) sum0
      (by rw [hlen]; exact hbs), hpart,
      forall_sum_eq nf wf f (rangeIndices (c 0) (c k)) sum0 hbf]
  · rw [forall_minloc_seg_eq_fold, hpart, forall_minloc_eq_fold]
  · rw [forall_maxloc_seg_eq_fold, hpart, forall_maxloc_eq_fold]

/-- Witness for C4: the range `[0, 4)` split at cut points `0, 2, 4` into
two segments, with contributions `ii`, one outer and one flat worker. -/
theorem segmented_dispatch_equiv_witness :
    1 ≤ 2 ∧
    (∀ i < 2, (fun i : Nat => 2 * (i : Int)) i
        ≤ (fun i : Nat => 2 * (i : Int)) (i + 1)) ∧
    (∀ j < 2, 0 < 1) ∧
    (∀ ii ∈ rangeIndices 0 4, 0 < 1) ∧
    (hybridIndices (partitionSegs (fun i : Nat => 2 * (i : Int)) 2)
        = rangeIndices 0 4
    ∧ forall_sum_seg 1 (fun _ => 0) (fun ii => ii)
          (partitionSegs (fun i : Nat => 2 * (i : Int)) 2) 7
        = forall_sum 1 (fun _ => 0) (fun ii => ii) (rangeIndices 0 4) 7
    ∧ forall_minloc_seg (fun ii => ii)
          (partitionSegs (fun i : Nat => 2 * (i : Int)) 2) 9 (-1)
        = forall_minloc (fun ii => ii) (rangeIndices 0 4) 9 (-1)
    ∧ forall_maxloc_seg (fun ii => ii)
          (partitionSegs (fun i : Nat => 2 * (i : Int)) 2) (-9) (-1)
        = forall_maxloc (fun ii => ii) (rangeIndices 0 4) (-9) (-1)) :=
  ⟨by decide, by decide, by decide, by decide,
    segmented_dispatch_equiv (fun i : Nat => 2 * (i : Int)) 2 (by decide)
      (by decide) (fun ii => ii) 1 (fun _ => 0) (by decide) 1 (fun _ => 0)
      (by decide) 7 9 (-1) (-9) (-1)⟩

/-- C8: Unrecognized segment kind: inserting a segment whose discriminator
matches no handled case (`default:` in every segmented switch) anywhere in
a hybrid index set leaves the dispatched index sequence and every segmented
reduction result identical to the same collection without that segment. -/
theorem unknown_segment_noop (s1 s2 : List Segment) (f : Int → Int)
    (n : Nat) (wseg : Nat → Nat)
    (hb : ∀ j < (s1 ++ Segment.unknown :: s2).length, wseg j < n)
    (sum0 m0 l0 M0 L0 : Int) :
    hybridIndices (s1 ++ Segment.unknown :: s2) = hybridIndices (s1 ++ s2)
    ∧ forall_sum_seg n wseg f (s1 ++ Segment.unknown :: s2) sum0
        = forall_sum_seg n wseg f (s1 ++ s2) sum0
    ∧ forall_minloc_seg f (s1 ++ Segment.unknown :: s2) m0 l0
        = forall_minloc_seg f (s1 ++ s2) m0 l0
    ∧ forall_maxloc_seg f (s1 ++ Segment.unknown :: s2) M0 L0
        = forall_maxloc_seg f (s1 ++ s2) M0 L0 := by
  have hidx : hybridIndices (s1 ++ Segment.unknown :: s2)
      = hybridIndices (s1 ++ s2) := by
    rw [hybridIndices_append, hybridIndices_append]
    show hybridIndices s1 ++ (segIndices Segment.unknown ++ hybridIndices s2)
      = hybridIndices s1 ++ hybridIndices s2
    rfl
  have hb2 : ∀ j < (s1 ++ s2).length, wseg j < n := by
    intro j hj
    apply hb
    rw [List.length_append] at hj ⊢
    simp only [List.length_cons]
    omega
  refine ⟨hidx, ?_, ?_, ?_⟩
  · rw [forall_sum_seg_eq n wseg f _ sum0 hb,
      forall_sum_seg_eq n wseg f _ sum0 hb2, hidx]
  · rw [forall_minloc_seg_eq_fold, forall_minloc_seg_eq_fold, hidx]
  · rw [forall_maxloc_seg_eq_fold, forall_maxloc_seg_eq_fold, hidx]

/-- Witness for C8: an unknown-kind segment inserted between a range
segment `[0, 2)` and an indirection-list segment `[5, 6]`. -/
theorem unknown_segment_noop_witness :
    (∀ j < ([Segment.range 0 2] ++ Segment.unknown ::
        [Segment.unstructured [5, 6]]).length, 0 < 1) ∧
    (hybridIndices ([Segment.range 0 2] ++ Segment.unknown ::
        [Segment.unstructured [5, 6]])
      = hybridIndices ([Segment.range 0 2] ++ [Segment.unstructured [5, 6]])
    ∧ forall_sum_seg 1 (fun _ => 0) (fun ii => ii)
        ([Segment.range 0 2] ++ Segment.unknown ::
          [Segment.unstructured [5, 6]]) 3
        = forall_sum_seg 1 (fun _ => 0) (fun ii => ii)
            ([Segment.range 0 2] ++ [Segment.unstructured [5, 6]]) 3
    ∧ forall_minloc_seg (fun ii => ii)
        ([Segment.range 0 2] ++ Segment.unknown ::
          [Segment.unstructured [5, 6]]) 9 (-1)
        = forall_minloc_seg (fun ii => ii)
            ([Segment.range 0 2] ++ [Segment.unstructured [5, 6]]) 9 (-1)
    ∧ forall_maxloc_seg (fun ii => ii)
        ([Segment.range 0 2] ++ Segment.unknown ::
          [Segment.unstructured [5, 6]]) (-9) (-1)
        = forall_maxloc_seg (fun ii => ii)
            ([Segment.range 0 2] ++ [Segment.unstructured [5, 6]]) (-9) (-1)) :=
  ⟨by decide,
    unknown_segment_noop [Segment.range 0 2] [Segment.unstructured [5, 6]]
      (fun ii => ii) 1 (fun _ => 0) (by decide) 3 9 (-1) (-9) (-1)⟩

/-- C9: every invocation of the OpenMP parallel-policy entry point
`forall_impl(omp_parallel_exec<InnerPolicy>, ...)` writes the text
"param call" followed by a newline to standard output, for every iterable
(the inner dispatch prints nothing). -/
theorem omp_parallel_prints_param_call (iter : List Int) :
    (omp_parallel_forall_impl iter).1 = "param call\n" := rfl

end RAJA
